import Mathlib

/-!
Verification development for the magic-move code-animation engine.

The definitions below are a shallow embedding of the TypeScript sources:
`app/lib/magicMove/parseLineMeta.ts`, `app/lib/magicMove/parseMagicMove.ts`
and the timeline / playback / export logic of `app/page.tsx`.
JavaScript strings are modelled as Lean `String` / `List Char`,
JavaScript numbers as `ℚ`, and the React state mutations of the export
routine as an explicit state-passing function.
-/

namespace MagicMove

/-- Brace characters, defined by code point. -/
def lbrace : Char := Char.ofNat 123

/-- Closing brace character, defined by code point. -/
def rbrace : Char := Char.ofNat 125

/-- Backtick character, defined by code point. -/
def btick : Char := Char.ofNat 96

/-- Model of JavaScript `String.prototype.trim` on a character list
(whitespace here is space, tab, CR, LF — the characters that occur in this
pipeline's inputs). -/
def trimChars (cs : List Char) : List Char :=
  ((cs.dropWhile Char.isWhitespace).reverse.dropWhile Char.isWhitespace).reverse

/-- Model of JavaScript `String.prototype.split` with a one-character
separator: `"".split(sep)` is `[""]`, separators at the ends produce empty
components. -/
def splitOnChar (sep : Char) : List Char → List (List Char)
  | [] => [[]]
  | c :: rest =>
    match splitOnChar sep rest with
    | [] => [[]]
    | h :: t => if c = sep then [] :: h :: t else (c :: h) :: t

/-- Numeric value of a digit run, most significant digit first. -/
def digitsToNat (ds : List Char) : Nat :=
  ds.foldl (fun a c => a * 10 + (c.toNat - 48)) 0

/-- Parse the exponent suffix of a JavaScript decimal literal: an optional
sign followed by at least one digit, consuming the whole remaining input. -/
def parseExp : List Char → Option Int
  | [] => none
  | c :: ds =>
    if c = '+' then
      if ds ≠ [] ∧ ds.all Char.isDigit then some (digitsToNat ds) else none
    else if c = '-' then
      if ds ≠ [] ∧ ds.all Char.isDigit then some (-(digitsToNat ds : Int)) else none
    else
      if (c :: ds).all Char.isDigit then some (digitsToNat (c :: ds)) else none

/-- Value of one digit in a base up to 16 (`0-9`, `a-f`, `A-F`), `none`
for an invalid digit. -/
def digitValB (base : Nat) (c : Char) : Option Nat :=
  let v :=
    if c.isDigit then some (c.toNat - 48)
    else if 'a' ≤ c ∧ c ≤ 'f' then some (c.toNat - 87)
    else if 'A' ≤ c ∧ c ≤ 'F' then some (c.toNat - 55)
    else none
  match v with
  | some d => if d < base then some d else none
  | none => none

/-- Numeric value of a digit run in a given base; `none` when any
character is not a digit of that base. -/
def digitsToNatB (base : Nat) (ds : List Char) : Option Nat :=
  ds.foldl
    (fun acc c =>
      match acc, digitValB base c with
      | some a, some d => some (a * base + d)
      | _, _ => none)
    (some 0)

/-- Number of binary digits of `n` (0 for 0), with explicit recursion
fuel; callers pass fuel at least the bit length. -/
def bitLenFuel : Nat → Nat → Nat
  | 0, _ => 0
  | f + 1, n => if n = 0 then 0 else bitLenFuel f (n / 2) + 1

/-- Round-to-nearest with ties to even: `qu` and `rem` are the quotient
and remainder of the value by `den`. -/
def roundHalfEven (qu rem den : Nat) : Nat :=
  if 2 * rem < den then qu
  else if den < 2 * rem then qu + 1
  else if qu % 2 = 0 then qu else qu + 1

/-- Round the exact rational `±N/D` (`D > 0`) to the nearest IEEE-754
binary64 value, ties to even, returned as an exact rational: the JavaScript
number a numeric literal of that value denotes. `none` means the rounding
overflows to `±Infinity` (values of magnitude at least `2^1024 - 2^970`);
values below half the smallest subnormal underflow to 0. `fuel` bounds the
bit lengths involved. -/
def fitDouble (fuel : Nat) (neg : Bool) (N D : Nat) : Option ℚ :=
  if N = 0 then some 0
  else
    let e1 : Int := (bitLenFuel fuel N : Int) - (bitLenFuel fuel D : Int)
    let e : Int :=
      if D * 2 ^ (max 0 e1).toNat ≤ N * 2 ^ (max 0 (-e1)).toNat then e1 else e1 - 1
    let shift : Int := if e < -1022 then 1074 else 52 - e
    let num := N * 2 ^ (max 0 shift).toNat
    let den := D * 2 ^ (max 0 (-shift)).toNat
    let s := roundHalfEven (num / den) (num % den) den
    if s = 0 then some 0
    else if 1025 + shift ≤ (bitLenFuel fuel s : Int) then none
    else
      let sn : Int := if neg then -(s : Int) else (s : Int)
      if 0 ≤ shift then some (mkRat sn (2 ^ shift.toNat))
      else some (mkRat (sn * 2 ^ (-shift).toNat) 1)

/-- Double value of a decimal literal `±m · 10^p`, where `m` was read from
`dlen` digit characters: short-circuit the certain overflow
(`m ≥ 1, p ≥ 309` gives at least `10^309 > 2^1024`) and certain underflow
(`m · 10^p < 10^(p+dlen) ≤ 10^-324`, below half the smallest subnormal)
so that the exact rounding only ever handles bounded exponents. -/
def decToDouble (neg : Bool) (m dlen : Nat) (p : Int) : Option ℚ :=
  if m = 0 then some 0
  else if 309 ≤ p then none
  else if p + (dlen : Int) ≤ -324 then some 0
  else
    let pp := (max 0 p).toNat
    let pn := (max 0 (-p)).toNat
    fitDouble (4 * (dlen + pp + pn) + 64) neg (m * 10 ^ pp) (10 ^ pn)

/-- Double value of an unsigned radix literal body (after `0x`/`0o`/`0b`):
`none` when empty or containing an invalid digit (`NaN`) or when the value
overflows to `Infinity`. -/
def radixVal (base : Nat) (ds : List Char) : Option ℚ :=
  if ds = [] then none
  else
    match digitsToNatB base ds with
    | some n => fitDouble (4 * ds.length + 64) false n 1
    | none => none

/-- Parse a JavaScript decimal literal `D+ | D+.D* | .D+` with an optional
`e`/`E` exponent; `sign` records a leading minus. The exact value
`±(digits.digits) · 10^exp` is rounded to the nearest double by
`decToDouble`; `none` means the literal is not of this form (`NaN`) or
overflows to `Infinity`. -/
def parseDec (sign : Bool) (cs : List Char) : Option ℚ :=
  let intPart := cs.takeWhile Char.isDigit
  let rest := cs.dropWhile Char.isDigit
  let fracPart :=
    match rest with
    | c :: r => if c = '.' then r.takeWhile Char.isDigit else []
    | [] => []
  let rest2 :=
    match rest with
    | c :: r => if c = '.' then r.dropWhile Char.isDigit else rest
    | [] => rest
  if intPart = [] ∧ fracPart = [] then none
  else
    let m := digitsToNat (intPart ++ fracPart)
    let dlen := (intPart ++ fracPart).length
    match rest2 with
    | [] => decToDouble sign m dlen (-(fracPart.length : Int))
    | e :: r =>
      if e = 'e' ∨ e = 'E' then
        match parseExp r with
        | some ex => decToDouble sign m dlen (ex - (fracPart.length : Int))
        | none => none
      else none

/-- Model of `Number.isFinite(Number(string))` together with the finite
value: trim, `some 0` for the empty string, unsigned `0x`/`0o`/`0b` radix
literals, and optionally signed decimal literals with fraction and
exponent, each rounded to the nearest IEEE binary64 value; `none` when
`Number` yields `NaN` (unparsable text, signed radix literals, the
`Infinity` keyword) or `±Infinity` (overflow), all of which the source's
`Number.isFinite` guard rejects alike. -/
def jsNumberFinite (s : String) : Option ℚ :=
  let t := trimChars s.data
  if t = [] then some 0
  else
    match t with
    | '0' :: x :: ds =>
      if x = 'x' ∨ x = 'X' then radixVal 16 ds
      else if x = 'o' ∨ x = 'O' then radixVal 8 ds
      else if x = 'b' ∨ x = 'B' then radixVal 2 ds
      else parseDec false t
    | c :: cs =>
      if c = '+' then parseDec false cs
      else if c = '-' then parseDec true cs
      else parseDec false t
    | [] => some 0

/-- Model of `Number(rawValue)` where `rawValue` may be `undefined`
(`Number(undefined)` is `NaN`, hence non-finite). -/
def jsNumberOpt : Option String → Option ℚ
  | none => none
  | some s => jsNumberFinite s

/-- Step metadata, `MagicMoveStepMeta` in `types.ts`. -/
structure StepMeta where
  lines : Bool
  startLine : Int
deriving DecidableEq

/-- Which metadata keys were explicitly specified, from `parseLineMeta.ts`. -/
structure SpecifiedKeys where
  lines : Bool
  startLine : Bool
deriving DecidableEq

/-- Result of `parseLineMetaDetailed`. -/
structure LineMetaParseResult where
  meta : StepMeta
  specified : SpecifiedKeys
deriving DecidableEq

/-- Initial parser state: `lines=false, startLine=1`, nothing specified. -/
def initLineMeta : LineMetaParseResult :=
  ⟨⟨false, 1⟩, ⟨false, false⟩⟩

/-- Action of one `key:value` entry on the parser state
(`parseLineMeta.ts` lines 29–42): `lines` stores `rawValue === "true"` and
marks the key specified; `startLine` floors a finite value `≥ 1` and marks
the key specified, otherwise leaves the state unchanged; all other keys
leave the state unchanged. -/
def applyPartKV (st : LineMetaParseResult) (key : String) (rv : Option String) :
    LineMetaParseResult :=
  if key = "lines" then
    ⟨⟨rv == some "true", st.meta.startLine⟩, ⟨true, st.specified.startLine⟩⟩
  else if key = "startLine" then
    match jsNumberOpt rv with
    | some n => if 1 ≤ n then ⟨⟨st.meta.lines, ⌊n⌋⟩, ⟨st.specified.lines, true⟩⟩ else st
    | none => st
  else st

/-- Processing of one comma-separated part of a brace block
(`parseLineMeta.ts` lines 22–28): trim, skip empty parts, split on `:`,
trim the components, skip empty keys, then dispatch on the key. -/
def applyPart (st : LineMetaParseResult) (rawPart : List Char) : LineMetaParseResult :=
  let part := trimChars rawPart
  if part = [] then st
  else
    match splitOnChar ':' part with
    | [] => st
    | k :: rest =>
      let key := String.mk (trimChars k)
      let rv : Option String := rest.head?.map (fun v => String.mk (trimChars v))
      if key = "" then st else applyPartKV st key rv

/-- Key of a part, as extracted by `applyPart` (for stating theorems). -/
def partKeyOf (p : List Char) : String :=
  match splitOnChar ':' (trimChars p) with
  | [] => ""
  | k :: _ => String.mk (trimChars k)

/-- All `{...}` groups of an info string, in order, as produced by
`info.matchAll(/\x7b([^\x7d]*)\x7d/g)`: leftmost non-overlapping matches,
each running to the first closing brace; an unclosed opening brace ends the
scan. The first argument is recursion fuel, instantiated with the length of
the input. -/
def extractBlocks : Nat → List Char → List (List Char)
  | 0, _ => []
  | _ + 1, [] => []
  | fuel + 1, c :: rest =>
    if c = lbrace then
      match takeUntilClose rest with
      | some (inside, after) => inside :: extractBlocks fuel after
      | none => []
    else extractBlocks fuel rest
where
  /-- Characters up to the first closing brace, and the remainder after it. -/
  takeUntilClose : List Char → Option (List Char × List Char)
    | [] => none
    | c :: rest =>
      if c = rbrace then some ([], rest)
      else
        match takeUntilClose rest with
        | none => none
        | some (a, b) => some (c :: a, b)

/-- Embedding of `parseLineMetaDetailed` (`parseLineMeta.ts`): defaults
`lines=false, startLine=1`; an absent or empty info string changes nothing;
otherwise every comma-separated part of every `{...}` group is applied in
order. -/
def parseLineMetaDetailed (info : String) : LineMetaParseResult :=
  if info = "" then initLineMeta
  else
    (extractBlocks info.data.length info.data).foldl
      (fun st block => (splitOnChar ',' block).foldl applyPart st) initLineMeta

/-- A fenced block found by `parseFencedBlocks` (`parseMagicMove.ts`):
the opening backtick run, the trimmed info string, and the body. -/
structure Fence where
  fence : String
  info : String
  body : String
deriving DecidableEq

/-- Recognize a fence opener line, as `/^(`{3,})(.*)$/` does: at least three
leading backticks; the fence is the whole leading backtick run and the info
is the rest of the line, trimmed. -/
def openFenceOf (line : List Char) : Option (List Char × List Char) :=
  let ticks := line.takeWhile (· = btick)
  if 3 ≤ ticks.length then some (ticks, trimChars (line.drop ticks.length)) else none

/-- Collect body lines until a line starting with the opening fence;
returns the body lines, whether the fence was closed, and the remaining
lines after the closing line. -/
def collectBody (fence : List Char) : List (List Char) → (List (List Char) × Bool × List (List Char))
  | [] => ([], false, [])
  | l :: rest =>
    if fence.isPrefixOf l then ([], true, rest)
    else
      match collectBody fence rest with
      | (b, c, r) => (l :: b, c, r)

/-- Join body lines with newlines, as `bodyLines.join("\n")`. -/
def joinLines : List (List Char) → List Char
  | [] => []
  | [l] => l
  | l :: rest => l ++ '\n' :: joinLines rest

/-- Replace every CRLF by LF, as `input.replace(/\r\n/g, "\n")`. -/
def stripCR : List Char → List Char
  | [] => []
  | [c] => [c]
  | c1 :: c2 :: rest =>
    if c1 = '\r' ∧ c2 = '\n' then '\n' :: stripCR rest
    else c1 :: stripCR (c2 :: rest)

/-- Scan of `parseFencedBlocks` over the line list: skip non-opener lines,
and for each opener collect the body up to the closing fence; an unclosed
fence is still emitted but ends the scan. The first argument is recursion
fuel, instantiated with the number of lines. -/
def parseFencesFuel : Nat → List (List Char) → List Fence
  | 0, _ => []
  | _ + 1, [] => []
  | fuel + 1, line :: rest =>
    match openFenceOf line with
    | none => parseFencesFuel fuel rest
    | some (ticks, info) =>
      match collectBody ticks rest with
      | (bodyLines, closed, rest2) =>
        let f : Fence := ⟨String.mk ticks, String.mk info, String.mk (joinLines bodyLines)⟩
        if closed then f :: parseFencesFuel fuel rest2 else [f]

/-- Embedding of `parseFencedBlocks` (`parseMagicMove.ts` lines 10–45). -/
def parseFencedBlocks (input : String) : List Fence :=
  let ls := splitOnChar '\n' (stripCR input.data)
  parseFencesFuel ls.length ls

/-- Embedding of `stripFirstWord` (`parseMagicMove.ts` lines 47–51): the
first whitespace-delimited word of the info string and the trimmed
remainder; both empty when the regex `/^(\S+)(?:\s+(.*))?$/` does not match
(empty input or leading whitespace; info strings here are single-line). -/
def stripFirstWord (info : String) : String × String :=
  match info.data with
  | [] => ("", "")
  | c :: _ =>
    if c.isWhitespace then ("", "")
    else
      let w := info.data.takeWhile (fun ch => !ch.isWhitespace)
      (String.mk w, String.mk (trimChars (info.data.drop w.length)))

/-- One parsed step: language, code and resolved metadata. -/
structure MagicMoveStep where
  lang : String
  code : String
  meta : StepMeta
deriving DecidableEq

/-- Per-key metadata resolution (`parseMagicMove.ts` lines 81–85): a key
explicitly specified on the step wins, otherwise the outer metadata value
is used. -/
def resolveMeta (outerMeta : StepMeta) (rest : String) : StepMeta :=
  let parsed := parseLineMetaDetailed rest
  ⟨if parsed.specified.lines then parsed.meta.lines else outerMeta.lines,
   if parsed.specified.startLine then parsed.meta.startLine else outerMeta.startLine⟩

/-- Step construction from a fence (`parseMagicMove.ts` lines 76–86): only
triple-backtick fences become steps; the language is the first word of the
info string, with `"text"` substituted for the empty string (`lang || "text"`). -/
def stepOfFence (outerMeta : StepMeta) (f : Fence) : Option MagicMoveStep :=
  if f.fence = "```" then
    let lw := stripFirstWord f.info
    some ⟨if lw.1 = "" then "text" else lw.1, f.body, resolveMeta outerMeta lw.2⟩
  else none

/-- All steps of a block, in order. -/
def blockSteps (outerMeta : StepMeta) (fences : List Fence) : List MagicMoveStep :=
  fences.filterMap (stepOfFence outerMeta)

/-- Defensive re-validation (`parseMagicMove.ts` lines 90–92): one error per
step whose resolved start line is below one. -/
def stepErrors (steps : List MagicMoveStep) : List String :=
  steps.enum.filterMap fun p =>
    if p.2.meta.startLine < 1 then
      some ("Step " ++ toString (p.1 + 1) ++ ": startLine must be >= 1")
    else none

/-- One parsed magic-move block. -/
structure MagicMoveBlock where
  kind : String
  outerMeta : StepMeta
  steps : List MagicMoveStep
  errors : List String
deriving DecidableEq

/-- Assembly of one block from its wrapper match (`parseMagicMove.ts`
lines 66–94): parse the outer metadata, extract the inner fences, build the
steps, then validate. -/
def assembleBlock (kind : String) (outerInfo : String) (inner : String) : MagicMoveBlock :=
  let outerMeta := (parseLineMetaDetailed outerInfo).meta
  let steps := blockSteps outerMeta (parseFencedBlocks inner)
  let errs :=
    (if steps.length = 0 then ["No code steps found inside this magic-move block."] else [])
      ++ stepErrors steps
  ⟨kind, outerMeta, steps, errs⟩

/-- Timeline record computed in `page.tsx` (lines 90–99): fixed holds of
250/120/250 ms; for at most one step the total is the two outer holds, else
one transition and one between-hold per consecutive pair. -/
structure Timeline where
  totalMs : ℚ
  startHold : ℚ
  betweenHold : ℚ
  endHold : ℚ
deriving DecidableEq

/-- Embedding of the `timeline` memo of `page.tsx`. -/
def timeline (stepCount : Nat) (transitionMs : ℚ) : Timeline :=
  if stepCount ≤ 1 then ⟨250 + 250, 250, 120, 250⟩
  else
    let transitions : ℚ := ((stepCount : ℤ) - 1 : ℤ)
    ⟨250 + transitions * transitionMs + transitions * 120 + 250, 250, 120, 250⟩

/-- Playback state rendered by `renderAt`: either a single held step, or a
transition between two adjacent steps at some progress. -/
inductive PlayState where
  | holding (idx : Nat)
  | transitioning (fromIdx toIdx : Nat) (progress : ℚ)
deriving DecidableEq

/-- The pair loop of `renderAt` (`page.tsx` lines 209–243): for each
consecutive pair, a transition while `t ≤ transitionMs` (progress 1 when
`transitionMs ≤ 0`, else `t / transitionMs`), then a hold of the next step
while the remainder is `≤ betweenHold`; after all pairs, a hold of the last
step. `i` is the current pair index and the second argument counts the
remaining pairs. -/
def renderPairLoop (trans between : ℚ) : Nat → Nat → ℚ → PlayState
  | i, 0, _ => PlayState.holding i
  | i, rem + 1, t =>
    if t ≤ trans then
      PlayState.transitioning i (i + 1) (if trans ≤ 0 then 1 else t / trans)
    else if t - trans ≤ between then PlayState.holding (i + 1)
    else renderPairLoop trans between (i + 1) rem (t - trans - between)

/-- Embedding of the time-to-state mapping of `renderAt` (`page.tsx`
lines 151–257), abstracting each `drawCodeFrame` call to the `PlayState` it
renders: `none` when there are no step layouts (the early return), a
constant hold for a single step, otherwise clamp the time, hold step 0
before `startHold`, then run the pair loop. -/
def renderStateAt (stepLayoutCount : Nat) (transitionMs ms : ℚ) : Option PlayState :=
  if stepLayoutCount = 0 then none
  else
    let tl := timeline stepLayoutCount transitionMs
    let clampMs := max 0 (min tl.totalMs ms)
    if stepLayoutCount = 1 then some (PlayState.holding 0)
    else if clampMs < tl.startHold then some (PlayState.holding 0)
    else
      some (renderPairLoop transitionMs tl.betweenHold 0 (stepLayoutCount - 1)
        (clampMs - tl.startHold))

/-- Modelled from the spec: the pair loop of §4.5 step 4, word for word —
`if remaining t ≤ transitionMs, emit Transitioning(i, i+1, t/transitionMs)`
(progress = 1 when `transitionMs == 0`); else subtract `transitionMs`; if
remaining `t ≤ betweenHoldMs`, emit `Holding(i+1)`; else subtract and
continue; after exhausting all pairs, `Holding(n-1)`. -/
def specPairLoop (trans between : ℚ) : Nat → Nat → ℚ → PlayState
  | i, 0, _ => PlayState.holding i
  | i, rem + 1, t =>
    if t ≤ trans then
      PlayState.transitioning i (i + 1) (if trans = 0 then 1 else t / trans)
    else if t - trans ≤ between then PlayState.holding (i + 1)
    else specPairLoop trans between (i + 1) rem (t - trans - between)

/-- Modelled from the spec: `totalMs = startHoldMs + (n-1)·transitionMs +
(n-1)·betweenHoldMs + endHoldMs` with the built-in holds 250/120/250. -/
def specTotalMs (n : Nat) (trans : ℚ) : ℚ :=
  250 + ((n : ℚ) - 1) * trans + ((n : ℚ) - 1) * 120 + 250

/-- Modelled from the spec: the §4.5 state machine for `n ≥ 2` steps —
clamp the elapsed time to `[0, totalMs]`, hold step 0 strictly before
`startHoldMs`, then run the pair loop on the remainder. -/
def specStateAt (n : Nat) (trans ms : ℚ) : PlayState :=
  let clamped := max 0 (min (specTotalMs n trans) ms)
  if clamped < 250 then PlayState.holding 0
  else specPairLoop trans 120 0 (n - 1) (clamped - 250)

/-- The component state touched by `onExport` in `page.tsx`: presence of
the canvas ref, number of built step layouts, and the React state fields it
mutates. `lastRenderMs` records the time of the most recent `renderAt`
call. -/
structure HomeState where
  canvasPresent : Bool
  layoutCount : Nat
  isExporting : Bool
  exportProgress : ℚ
  playheadMs : ℚ
  downloadUrl : Option String
  layoutError : Option String
  lastRenderMs : Option ℚ
deriving DecidableEq

/-- Embedding of `onExport` (`page.tsx` lines 309–364) as a state
transformer. The awaited recording is passed in as its outcome: a blob on
success or an error message on rejection. The guards, the initial progress
reset and URL revocation, the `try`/`catch` arms and the `finally` block
are translated in order; the host-scheduled render loop is represented
only through the final `renderAt(0)` of the `finally` block. -/
def onExport (st : HomeState) (recording : Except String String) : HomeState :=
  if st.canvasPresent = false then st
  else if st.layoutCount = 0 then st
  else
    let st1 : HomeState :=
      { st with isExporting := true, exportProgress := 0, downloadUrl := none }
    match recording with
    | Except.ok blob =>
      { st1 with downloadUrl := some blob,
                 isExporting := false, exportProgress := 0, playheadMs := 0,
                 lastRenderMs := some 0 }
    | Except.error msg =>
      { st1 with layoutError := some msg,
                 isExporting := false, exportProgress := 0, playheadMs := 0,
                 lastRenderMs := some 0 }

/-- A positioned token of a layout (spec §3 `Layout`). -/
structure PosTok where
  text : String
  color : String
  x : ℚ
  y : ℚ
  w : ℚ
  h : ℚ
deriving DecidableEq

/-- An animated token (spec §3 `AnimatedToken`). -/
structure AnimTok where
  text : String
  color : String
  x : ℚ
  y : ℚ
  opacity : ℚ
deriving DecidableEq

/-- Tokens paired with their occurrence index: the 0-based rank of the
token's exact text among the earlier tokens of the same layout. -/
def occAux : List PosTok → List PosTok → List (PosTok × Nat)
  | _, [] => []
  | prev, t :: rest =>
    (t, (prev.filter (fun u => u.text == t.text)).length) :: occAux (prev ++ [t]) rest

/-- Occurrence-indexed token list of a layout. -/
def occList (toks : List PosTok) : List (PosTok × Nat) :=
  occAux [] toks

/-- Look up the token with a given `(text, occurrenceIndex)` key. -/
def findByKey (l : List (PosTok × Nat)) (text : String) (k : Nat) : Option PosTok :=
  (l.find? (fun p => p.1.text == text && p.2 == k)).map (fun p => p.1)

/-- Linear interpolation. -/
def lerp (a b p : ℚ) : ℚ :=
  a + (b - a) * p

/-- Modelled from the spec: the token-diff animator of §4.3
(`app/lib/magicMove/animate.ts`, which is not among the provided sources).
Tokens are matched by `(text, occurrenceIndex)`; a matched token moves by
linear interpolation with opacity 1 and snaps to the destination color once
progress is positive; a token only in the source fades out in place with
opacity `1 - progress`; a token only in the destination fades in in place
with opacity `progress`. -/
def animateLayouts (fromL toL : List PosTok) (progress : ℚ) : List AnimTok :=
  ((occList fromL).map fun p =>
    match findByKey (occList toL) p.1.text p.2 with
    | some u =>
      ⟨p.1.text, if 0 < progress then u.color else p.1.color,
        lerp p.1.x u.x progress, lerp p.1.y u.y progress, 1⟩
    | none => ⟨p.1.text, p.1.color, p.1.x, p.1.y, 1 - progress⟩)
  ++ (occList toL).filterMap fun p =>
    if (findByKey (occList fromL) p.1.text p.2).isSome then none
    else some ⟨p.1.text, p.1.color, p.1.x, p.1.y, progress⟩

/-- Inner body of the parser round-trip example: two triple-backtick
fences, `ts` and `ts \x7bstartLine:10\x7d`. -/
def exampleInner : String :=
  "```ts\nfn a\n```\n\n```ts \x7bstartLine:10\x7d\nfn b\n```"

/-- Inner body whose only fence has a metadata group and no language word
on its info string. -/
def metaOnlyInner : String :=
  "```\x7bstartLine:5\x7d\nA\n```"

/-! Helper lemmas. -/

theorem applyPartKV_startLine_ge (st : LineMetaParseResult) (key : String) (rv : Option String)
    (h : 1 ≤ st.meta.startLine) : 1 ≤ (applyPartKV st key rv).meta.startLine := by
  unfold applyPartKV
  by_cases h1 : key = "lines"
  · simpa [h1] using h
  · by_cases h2 : key = "startLine"
    · simp only [if_neg h1, if_pos h2]
      cases hn : jsNumberOpt rv with
      | none => exact h
      | some n =>
        by_cases hq : 1 ≤ n
        · simpa [hq] using Int.le_floor.mpr (by exact_mod_cast hq)
        · simpa [hq] using h
    · simpa [h1, h2] using h

theorem applyPart_startLine_ge (st : LineMetaParseResult) (p : List Char)
    (h : 1 ≤ st.meta.startLine) : 1 ≤ (applyPart st p).meta.startLine := by
  unfold applyPart
  by_cases h0 : trimChars p = []
  · simpa [h0] using h
  · simp only [if_neg h0]
    cases hs : splitOnChar ':' (trimChars p) with
    | nil => exact h
    | cons k rest =>
      by_cases hk : String.mk (trimChars k) = ""
      · simpa [hk] using h
      · simpa [hk] using applyPartKV_startLine_ge st _ _ h

theorem foldl_applyPart_startLine_ge (ps : List (List Char)) (st : LineMetaParseResult)
    (h : 1 ≤ st.meta.startLine) : 1 ≤ (ps.foldl applyPart st).meta.startLine := by
  induction ps generalizing st with
  | nil => exact h
  | cons p ps ih => exact ih _ (applyPart_startLine_ge st p h)

theorem foldl_blocks_startLine_ge (bs : List (List Char)) (st : LineMetaParseResult)
    (h : 1 ≤ st.meta.startLine) :
    1 ≤ (bs.foldl (fun st2 block => (splitOnChar ',' block).foldl applyPart st2) st).meta.startLine := by
  induction bs generalizing st with
  | nil => exact h
  | cons b bs ih => exact ih _ (foldl_applyPart_startLine_ge _ st h)

theorem parseLineMetaDetailed_startLine_ge (info : String) :
    1 ≤ (parseLineMetaDetailed info).meta.startLine := by
  unfold parseLineMetaDetailed
  by_cases h : info = ""
  · simp [h, initLineMeta]
  · simpa [h] using foldl_blocks_startLine_ge _ initLineMeta (by norm_num [initLineMeta])

theorem resolveMeta_startLine_ge (o : StepMeta) (rest : String) (ho : 1 ≤ o.startLine) :
    1 ≤ (resolveMeta o rest).startLine := by
  unfold resolveMeta
  by_cases h : (parseLineMetaDetailed rest).specified.startLine
  · simpa [h] using parseLineMetaDetailed_startLine_ge rest
  · simpa [h] using ho

theorem blockSteps_startLine_ge (o : StepMeta) (fences : List Fence) (ho : 1 ≤ o.startLine)
    (s : MagicMoveStep) (hs : s ∈ blockSteps o fences) : 1 ≤ s.meta.startLine := by
  rcases List.mem_filterMap.mp hs with ⟨f, _, hsf⟩
  unfold stepOfFence at hsf
  by_cases hf : f.fence = "```"
  · rw [if_pos hf] at hsf
    cases hsf
    exact resolveMeta_startLine_ge o _ ho
  · rw [if_neg hf] at hsf
    cases hsf

theorem stripFirstWord_of_trim_nil (info : String) (h : trimChars info.data = []) :
    stripFirstWord info = ("", "") := by
  unfold stripFirstWord
  cases hd : info.data with
  | nil => rfl
  | cons c cs =>
    have hws : c.isWhitespace = true := by
      by_contra hcw
      rw [hd] at h
      unfold trimChars at h
      have h2 := List.reverse_eq_nil_iff.mp h
      have h3 := (List.dropWhile_eq_nil_iff).mp h2
      have hmem : c ∈ ((c :: cs).dropWhile Char.isWhitespace).reverse := by
        rw [List.dropWhile_cons_of_neg (by simpa using hcw)]
        simp
      exact hcw (h3 c hmem)
    simp [hws]

theorem pairLoop_agree (trans between : ℚ) (ht : 0 ≤ trans) :
    ∀ (rem i : Nat) (t : ℚ),
      renderPairLoop trans between i rem t = specPairLoop trans between i rem t := by
  intro rem
  induction rem with
  | zero => intro i t; rfl
  | succ m ih =>
    intro i t
    simp only [renderPairLoop, specPairLoop]
    by_cases h1 : t ≤ trans
    · simp only [if_pos h1]
      exact congrArg _ (if_congr ⟨fun h => le_antisymm h ht, fun h => h.le⟩ rfl rfl)
    · by_cases h2 : t - trans ≤ between
      · simp [h1, h2]
      · simp [h1, h2, ih]

theorem occAux_map_fst (l pre : List PosTok) : (occAux pre l).map Prod.fst = l := by
  induction l generalizing pre with
  | nil => rfl
  | cons t rest ih => simp [occAux, ih]

theorem occList_map_fst (l : List PosTok) : (occList l).map Prod.fst = l :=
  occAux_map_fst l []

theorem lerp_zero (a b : ℚ) : lerp a b 0 = a := by
  unfold lerp
  ring

theorem lerp_one (a b : ℚ) : lerp a b 1 = b := by
  unfold lerp
  ring

/-! Claim theorems. -/

/-- C3: for every step count `n` and fixed durations, `totalMs` equals
`startHold + (n-1)·transitionMs + (n-1)·betweenHold + endHold` when
`n ≥ 2` and `startHold + endHold` when `n ≤ 1`; with the built-in holds
250/120/250 and `transitionMs = 800`, three steps give `totalMs = 2340`. -/
theorem timeline_total_duration (n : Nat) (trans : ℚ) :
    (2 ≤ n → (timeline n trans).totalMs
        = 250 + ((n : ℚ) - 1) * trans + ((n : ℚ) - 1) * 120 + 250) ∧
    (n ≤ 1 → (timeline n trans).totalMs = 250 + 250) ∧
    (timeline 3 800).totalMs = 2340 := by
  refine ⟨fun h => ?_, fun h => ?_, ?_⟩
  · have hn : ¬ n ≤ 1 := by omega
    simp only [timeline, if_neg hn]
    push_cast
    ring
  · simp [timeline, h]
  · norm_num [timeline]

/-- Witness for C3 at `n = 3`, `transitionMs = 800`. -/
theorem timeline_total_duration_witness :
    (timeline 3 800).totalMs = 250 + ((3 : ℚ) - 1) * 800 + ((3 : ℚ) - 1) * 120 + 250 :=
  (timeline_total_duration 3 800).1 (by norm_num)

/-- C8: for fixed non-negative durations, `totalMs` is monotonically
non-decreasing in the step count. -/
theorem timeline_monotone_in_steps (n : Nat) (trans : ℚ) (ht : 0 ≤ trans) :
    (timeline n trans).totalMs ≤ (timeline (n + 1) trans).totalMs := by
  match n with
  | 0 => simp [timeline]
  | 1 =>
    simp only [timeline]
    norm_num
    linarith
  | m + 2 =>
    have h1 : ¬ m + 2 ≤ 1 := by omega
    have h2 : ¬ m + 2 + 1 ≤ 1 := by omega
    simp only [timeline, if_neg h1, if_neg h2]
    push_cast
    have hm : (0 : ℚ) ≤ (m : ℚ) := by positivity
    nlinarith

/-- Witness for C8 at `n = 1`, `transitionMs = 800`. -/
theorem timeline_monotone_in_steps_witness :
    (timeline 1 800).totalMs ≤ (timeline 2 800).totalMs :=
  timeline_monotone_in_steps 1 800 (by norm_num)

/-- C7: on both exit paths of the export operation — the recording
resolving with a blob or rejecting with an error — the export resets the
progress fraction to 0, resets the playhead to 0, and re-renders the frame
at time 0. -/
theorem onExport_always_cleans_up (st : HomeState) (recording : Except String String)
    (hc : st.canvasPresent = true) (hl : st.layoutCount ≠ 0) :
    (onExport st recording).exportProgress = 0 ∧
    (onExport st recording).playheadMs = 0 ∧
    (onExport st recording).lastRenderMs = some 0 := by
  cases recording <;> simp [onExport, hc, hl]

/-- Witness for C7: a failing export from a live state. -/
theorem onExport_always_cleans_up_witness :
    (onExport ⟨true, 2, false, 0, 37, none, none, none⟩
        (Except.error "Export failed")).exportProgress = 0 ∧
    (onExport ⟨true, 2, false, 0, 37, none, none, none⟩
        (Except.error "Export failed")).playheadMs = 0 ∧
    (onExport ⟨true, 2, false, 0, 37, none, none, none⟩
        (Except.error "Export failed")).lastRenderMs = some 0 :=
  onExport_always_cleans_up _ _ rfl (by decide)

/-- C2: a step's effective metadata takes each key from the step's own
fence info when explicitly specified there and otherwise falls back to the
wrapper's outer metadata, which defaults to `lines=false, startLine=1` when
absent; the wrapper `shiki-magic-move \x7blines:true,startLine:5\x7d` with
fences `ts` and `ts \x7bstartLine:10\x7d` yields step metas
`\x7blines:true,startLine:5\x7d` and `\x7blines:true,startLine:10\x7d`. -/
theorem step_meta_inheritance :
    (∀ (o : StepMeta) (rest : String),
        (resolveMeta o rest).lines
          = if (parseLineMetaDetailed rest).specified.lines
            then (parseLineMetaDetailed rest).meta.lines else o.lines) ∧
    (∀ (o : StepMeta) (rest : String),
        (resolveMeta o rest).startLine
          = if (parseLineMetaDetailed rest).specified.startLine
            then (parseLineMetaDetailed rest).meta.startLine else o.startLine) ∧
    parseLineMetaDetailed "" = initLineMeta ∧
    (assembleBlock "shiki-magic-move" "\x7blines:true,startLine:5\x7d" exampleInner).steps.map
        MagicMoveStep.meta = [⟨true, 5⟩, ⟨true, 10⟩] :=
  ⟨fun _ _ => rfl, fun _ _ => rfl, by decide, by decide⟩

/-- C10: a `lines` entry on the step's own metadata always counts as
explicitly specified (blocking inheritance from the wrapper), and the
resolved value is true exactly when the entry's trimmed value is the text
`true`; in particular an inner `\x7blines:false\x7d` or `\x7blines:yes\x7d`
overrides an outer `lines=true` to false. -/
theorem lines_key_explicit_override :
    (∀ (st : LineMetaParseResult) (rv : Option String),
        (applyPartKV st "lines" rv).specified.lines = true) ∧
    (∀ (st : LineMetaParseResult) (rv : Option String),
        ((applyPartKV st "lines" rv).meta.lines = true ↔ rv = some "true")) ∧
    (∀ (o : StepMeta) (rest : String),
        (parseLineMetaDetailed rest).specified.lines = true →
          (resolveMeta o rest).lines = (parseLineMetaDetailed rest).meta.lines) ∧
    resolveMeta ⟨true, 1⟩ "\x7blines:false\x7d" = ⟨false, 1⟩ ∧
    (resolveMeta ⟨true, 1⟩ "\x7blines:yes\x7d").lines = false := by
  refine ⟨fun st rv => rfl, fun st rv => ?_, fun o rest h => ?_, by decide, by decide⟩
  · simp [applyPartKV]
  · simp [resolveMeta, h]

/-- Witness for C10: an inner `lines:false` beats an outer `lines=true`. -/
theorem lines_key_explicit_override_witness :
    (parseLineMetaDetailed "\x7blines:false\x7d").specified.lines = true ∧
    (resolveMeta ⟨true, 1⟩ "\x7blines:false\x7d").lines
      = (parseLineMetaDetailed "\x7blines:false\x7d").meta.lines :=
  ⟨by decide, lines_key_explicit_override.2.2.1 ⟨true, 1⟩ "\x7blines:false\x7d" (by decide)⟩

/-- C1: for `n ≥ 2` step layouts and any elapsed time, the time-to-state
mapping of `renderAt` clamps the time to `[0, totalMs]`, holds step 0
strictly before `startHoldMs`, then walks the consecutive pairs exactly as
the spec describes — transition with progress `t / transitionMs` while
`t ≤ transitionMs` (progress 1 when `transitionMs = 0`), hold of step
`i+1` while the remainder is `≤ betweenHoldMs` — and holds the last step
after all pairs. -/
theorem renderAt_state_matches_spec (n : Nat) (trans ms : ℚ) (hn : 2 ≤ n) (ht : 0 ≤ trans) :
    renderStateAt n trans ms = some (specStateAt n trans ms) := by
  have h0 : ¬ n = 0 := by omega
  have h1 : ¬ n = 1 := by omega
  have hle : ¬ n ≤ 1 := by omega
  have htl : timeline n trans = ⟨specTotalMs n trans, 250, 120, 250⟩ := by
    simp only [timeline, if_neg hle, specTotalMs]
    congr 1
    push_cast
    ring
  simp only [renderStateAt, if_neg h0, if_neg h1, htl, specStateAt]
  by_cases hc : max 0 (min (specTotalMs n trans) ms) < 250
  · simp [hc]
  · simp [hc, pairLoop_agree trans 120 ht]

/-- Witness for C1 at `n = 3`, `transitionMs = 800`, `ms = 1000`. -/
theorem renderAt_state_matches_spec_witness :
    renderStateAt 3 800 1000 = some (specStateAt 3 800 1000) :=
  renderAt_state_matches_spec 3 800 1000 (by norm_num) (by norm_num)

/-- C4: at progress 0 the animation output is the source layout's own
tokens at opacity 1 followed by the destination-only tokens at opacity 0;
at progress 1 it is the matched tokens at the destination's positions and
colors at opacity 1, the source-only tokens at opacity 0, and the
destination-only tokens at their own positions at opacity 1. -/
theorem animate_boundary_exactness (A B : List PosTok) :
    animateLayouts A B 0
      = A.map (fun t => ⟨t.text, t.color, t.x, t.y, 1⟩)
        ++ (occList B).filterMap (fun p =>
              if (findByKey (occList A) p.1.text p.2).isSome then none
              else some ⟨p.1.text, p.1.color, p.1.x, p.1.y, 0⟩) ∧
    animateLayouts A B 1
      = (occList A).map (fun p =>
            match findByKey (occList B) p.1.text p.2 with
            | some u => ⟨p.1.text, u.color, u.x, u.y, 1⟩
            | none => ⟨p.1.text, p.1.color, p.1.x, p.1.y, 0⟩)
        ++ (occList B).filterMap (fun p =>
              if (findByKey (occList A) p.1.text p.2).isSome then none
              else some ⟨p.1.text, p.1.color, p.1.x, p.1.y, 1⟩) := by
  constructor
  · unfold animateLayouts
    congr 1
    have hpt : ∀ p ∈ occList A,
        (match findByKey (occList B) p.1.text p.2 with
          | some u =>
            (⟨p.1.text, if (0 : ℚ) < 0 then u.color else p.1.color,
              lerp p.1.x u.x 0, lerp p.1.y u.y 0, 1⟩ : AnimTok)
          | none => ⟨p.1.text, p.1.color, p.1.x, p.1.y, 1 - 0⟩)
          = ((fun t : PosTok => (⟨t.text, t.color, t.x, t.y, 1⟩ : AnimTok)) ∘ Prod.fst) p := by
      intro p _
      cases hfind : findByKey (occList B) p.1.text p.2 with
      | some u => simp [lerp_zero]
      | none => norm_num
    rw [List.map_congr_left hpt, ← List.map_map, occList_map_fst]
  · unfold animateLayouts
    congr 1
    refine List.map_congr_left (fun p _ => ?_)
    cases hfind : findByKey (occList B) p.1.text p.2 with
    | some u => simp [hfind, lerp_one]
    | none => simp [hfind]

/-- C5: every step produced by the block parser has `startLine ≥ 1`, the
defensive per-step `startLine` validation never fires, and a block's error
list is exactly the no-steps message when the block has no steps and empty
otherwise. -/
theorem parsed_startLine_ge_one (kind outerInfo inner : String) :
    (∀ s ∈ (assembleBlock kind outerInfo inner).steps, 1 ≤ s.meta.startLine) ∧
    stepErrors (assembleBlock kind outerInfo inner).steps = [] ∧
    (assembleBlock kind outerInfo inner).errors
      = if (assembleBlock kind outerInfo inner).steps = []
        then ["No code steps found inside this magic-move block."] else [] := by
  have hsteps : ∀ s ∈ (assembleBlock kind outerInfo inner).steps, 1 ≤ s.meta.startLine := by
    intro s hs
    exact blockSteps_startLine_ge _ _ (parseLineMetaDetailed_startLine_ge outerInfo) s hs
  have herr : stepErrors (assembleBlock kind outerInfo inner).steps = [] := by
    unfold stepErrors
    rw [List.filterMap_eq_nil_iff]
    intro p hp
    have hpm : p.2 ∈ (assembleBlock kind outerInfo inner).steps :=
      List.getElem?_mem (List.mem_enum_iff_getElem?.mp hp)
    have h2 := hsteps p.2 hpm
    rw [if_neg (by omega)]
  refine ⟨hsteps, herr, ?_⟩
  have hdef : (assembleBlock kind outerInfo inner).errors
      = (if (assembleBlock kind outerInfo inner).steps.length = 0
          then ["No code steps found inside this magic-move block."] else [])
        ++ stepErrors (assembleBlock kind outerInfo inner).steps := rfl
  rw [hdef, herr, List.append_nil]
  by_cases h : (assembleBlock kind outerInfo inner).steps = []
  · simp [h]
  · rw [if_neg (by simpa using h), if_neg h]

/-- Witness for C5: the single step of a minimal block. -/
theorem parsed_startLine_ge_one_witness :
    (⟨"ts", "A", ⟨false, 1⟩⟩ : MagicMoveStep)
        ∈ (assembleBlock "shiki-magic-move" "" "```ts\nA\n```").steps ∧
    1 ≤ (⟨"ts", "A", ⟨false, 1⟩⟩ : MagicMoveStep).meta.startLine :=
  ⟨by decide, (parsed_startLine_ge_one "shiki-magic-move" "" "```ts\nA\n```").1 _ (by decide)⟩

/-- C6: a `startLine:value` entry floors a finite value `≥ 1` and marks the
key specified, leaves the state unchanged (key unspecified) when the value
is below 1 or not finite, and entries with unrecognized keys never change
the parser state; concrete info strings exercise each case end to end,
including an overflowing literal `1e400` (`Number` gives `Infinity`, the
`isFinite` guard ignores the entry) and a hexadecimal literal `0x10`
(`Number` gives 16, floored and stored). -/
theorem startLine_entry_resolution :
    (∀ (st : LineMetaParseResult) (rv : Option String) (q : ℚ),
        jsNumberOpt rv = some q → 1 ≤ q →
          applyPartKV st "startLine" rv
            = ⟨⟨st.meta.lines, ⌊q⌋⟩, ⟨st.specified.lines, true⟩⟩) ∧
    (∀ (st : LineMetaParseResult) (rv : Option String) (q : ℚ),
        jsNumberOpt rv = some q → q < 1 → applyPartKV st "startLine" rv = st) ∧
    (∀ (st : LineMetaParseResult) (rv : Option String),
        jsNumberOpt rv = none → applyPartKV st "startLine" rv = st) ∧
    (∀ (st : LineMetaParseResult) (key : String) (rv : Option String),
        key ≠ "lines" → key ≠ "startLine" → applyPartKV st key rv = st) ∧
    (∀ (st : LineMetaParseResult) (p : List Char),
        partKeyOf p ≠ "lines" → partKeyOf p ≠ "startLine" → applyPart st p = st) ∧
    jsNumberFinite "1e400" = none ∧
    jsNumberFinite "0x10" = some 16 ∧
    parseLineMetaDetailed "\x7bstartLine:2.5\x7d" = ⟨⟨false, 2⟩, ⟨false, true⟩⟩ ∧
    parseLineMetaDetailed "\x7bstartLine:0.9\x7d" = initLineMeta ∧
    parseLineMetaDetailed "\x7bstartLine:1e400\x7d" = initLineMeta ∧
    parseLineMetaDetailed "\x7bstartLine:0x10\x7d" = ⟨⟨false, 16⟩, ⟨false, true⟩⟩ ∧
    parseLineMetaDetailed "\x7bstartLine:abc\x7d" = initLineMeta ∧
    parseLineMetaDetailed "\x7bfoo:9,startLine:3\x7d" = ⟨⟨false, 3⟩, ⟨false, true⟩⟩ := by
  refine ⟨?_, ?_, ?_, ?_, ?_, by decide, by decide, by decide, by decide, by decide,
    by decide, by decide, by decide⟩
  · intro st rv q hq h1
    simp [applyPartKV, hq, h1]
  · intro st rv q hq h1
    simp [applyPartKV, hq, not_le.mpr h1]
  · intro st rv hq
    simp [applyPartKV, hq]
  · intro st key rv h1 h2
    simp [applyPartKV, h1, h2]
  · intro st p h1 h2
    unfold applyPart
    by_cases h0 : trimChars p = []
    · simp [h0]
    · simp only [if_neg h0]
      unfold partKeyOf at h1 h2
      cases hs : splitOnChar ':' (trimChars p) with
      | nil => rfl
      | cons k rest =>
        rw [hs] at h1 h2
        by_cases hk : String.mk (trimChars k) = ""
        · simp [hk]
        · simp only [if_neg hk]
          simp [applyPartKV, h1, h2]

/-- Witness for C6: `startLine:2.5` floors to 2. -/
theorem startLine_entry_resolution_witness :
    jsNumberOpt (some "2.5") = some (mkRat 5 2) ∧
    (1 : ℚ) ≤ mkRat 5 2 ∧
    applyPartKV initLineMeta "startLine" (some "2.5")
      = ⟨⟨initLineMeta.meta.lines, ⌊(mkRat 5 2 : ℚ)⌋⟩, ⟨initLineMeta.specified.lines, true⟩⟩ :=
  ⟨by decide, by decide,
    startLine_entry_resolution.1 initLineMeta (some "2.5") (mkRat 5 2) (by decide) (by decide)⟩

/-- C9 counterexample: a triple-backtick fence whose info string is a bare
metadata group (no language word before it) gets that group's text as its
language, not `"text"`, so the claim as stated fails at this input. -/
theorem lang_metadata_only_counterexample :
    (assembleBlock "shiki-magic-move" "" metaOnlyInner).steps.map MagicMoveStep.lang
        = ["\x7bstartLine:5\x7d"] ∧
    ("\x7bstartLine:5\x7d" : String) ≠ "text" :=
  ⟨by decide, by decide⟩

/-- C9 (amended): a step fence whose info string is empty or all
whitespace gets the language `"text"`, and no step produced by the parser
ever has an empty language. -/
theorem step_lang_never_empty :
    (∀ (o : StepMeta) (f : Fence) (s : MagicMoveStep),
        stepOfFence o f = some s → s.lang ≠ "") ∧
    (∀ (o : StepMeta) (f : Fence) (s : MagicMoveStep),
        stepOfFence o f = some s → trimChars f.info.data = [] → s.lang = "text") ∧
    (∀ (kind outerInfo inner : String) (s : MagicMoveStep),
        s ∈ (assembleBlock kind outerInfo inner).steps → s.lang ≠ "") := by
  have hmain : ∀ (o : StepMeta) (f : Fence) (s : MagicMoveStep),
      stepOfFence o f = some s → s.lang ≠ "" := by
    intro o f s hsf
    unfold stepOfFence at hsf
    by_cases hf : f.fence = "```"
    · rw [if_pos hf] at hsf
      cases hsf
      by_cases hw : (stripFirstWord f.info).1 = ""
      · simp [hw]
      · simp [hw]
    · rw [if_neg hf] at hsf
      cases hsf
  refine ⟨hmain, ?_, ?_⟩
  · intro o f s hsf htrim
    unfold stepOfFence at hsf
    by_cases hf : f.fence = "```"
    · rw [if_pos hf] at hsf
      cases hsf
      simp [stripFirstWord_of_trim_nil f.info htrim]
    · rw [if_neg hf] at hsf
      cases hsf
  · intro kind outerInfo inner s hs
    rcases List.mem_filterMap.mp hs with ⟨f, _, hsf⟩
    exact hmain _ f s hsf

/-- Witness for C9: a concrete fence and the step it produces. -/
theorem step_lang_never_empty_witness :
    stepOfFence ⟨false, 1⟩ ⟨"```", "ts", "A"⟩ = some ⟨"ts", "A", ⟨false, 1⟩⟩ ∧
    (⟨"ts", "A", ⟨false, 1⟩⟩ : MagicMoveStep).lang ≠ "" :=
  ⟨by decide, step_lang_never_empty.1 ⟨false, 1⟩ ⟨"```", "ts", "A"⟩ _ (by decide)⟩

end MagicMove
